import Mathlib

/-!
Verification of the ATM server's ledger core against its specification.

The development shallowly embeds the repository's Python sources:
* `app/models.py`   — money codec (`to_cents`, `cents_to_str`) and the
  request-body amount validator (`validate_amount`), together with a model
  of Python's `Decimal` string parsing (`parseDecimal`);
* `app/storage.py`  — the in-memory account store (`InMemoryStore`) with
  its operations `get_balance_cents`, `deposit`, `withdraw`,
  `create_account`, and the lazy per-account lock registry;
* a small operational model of the lock-protected read-modify-write in
  `InMemoryStore.deposit`, used for the concurrency property.

Machine integers are embedded as `Int`/`Nat` (Python integers are
arbitrary precision, so no wraparound is modelled).  Exceptions are
embedded as `Except` results; a raising operation returns the error
together with the store state it leaves behind.
-/

/-! ### Decimal digits -/

/-- The decimal digit character for `d % 10` (Python's decimal rendering of
a digit). -/
def digitChar (d : Nat) : Char :=
  match d with
  | 0 => '0' | 1 => '1' | 2 => '2' | 3 => '3' | 4 => '4'
  | 5 => '5' | 6 => '6' | 7 => '7' | 8 => '8' | _ => '9'

/-- Numeric value of a decimal digit character. -/
def digitVal (c : Char) : Nat := c.toNat - 48

/-- Value of a big-endian list of decimal digit characters. -/
def digitsToNat (l : List Char) : Nat :=
  l.foldl (fun acc c => acc * 10 + digitVal c) 0

/-- Big-endian decimal digit characters of `n` (empty for `n = 0`), with
explicit fuel so that the definition is structural. -/
def natDigitChars : Nat → Nat → List Char
  | 0, _ => []
  | fuel + 1, n =>
    if n = 0 then [] else natDigitChars fuel (n / 10) ++ [digitChar (n % 10)]

/-- Decimal rendering of a natural number, as produced by Python's
string formatting of a non-negative integer. -/
def natToDecStr (n : Nat) : String :=
  if n = 0 then "0" else String.mk (natDigitChars n n)

/-- Python's `f"{n:02d}"` for `0 ≤ n < 100`: two-digit zero-padded
rendering. -/
def pad2 (n : Nat) : String :=
  (if n < 10 then "0" else "") ++ natToDecStr n

/-! ### Money codec (`app/models.py`) -/

/-- `cents_to_str` from `app/models.py`: format integer cents as a
two-decimal-place string, with a leading minus sign when negative. -/
def cents_to_str (cents : Int) : String :=
  (if cents < 0 then "-" else "") ++
    natToDecStr (cents.natAbs / 100) ++ "." ++ pad2 (cents.natAbs % 100)

/-- A parsed Python `Decimal` (finite value): the signed coefficient and
the exponent, denoting `coeff * 10 ^ exp`.  This matches
`Decimal.as_tuple()` up to folding the sign into the coefficient (the
validator and codec only inspect the value's sign and the exponent). -/
structure PyDecimal where
  coeff : Int
  exp : Int
deriving DecidableEq, Repr

/-- Exact rational value denoted by a parsed decimal. -/
def PyDecimal.val (d : PyDecimal) : ℚ := (d.coeff : ℚ) * (10 : ℚ) ^ d.exp

/-- Number of fractional digits of a parsed decimal (digits after the
point once the exponent is applied); `0` when the exponent is
non-negative. -/
def fracDigits (d : PyDecimal) : Nat := (-d.exp).toNat

/-- Leading run of decimal digit characters, and the rest. -/
def spanDigits : List Char → List Char × List Char
  | [] => ([], [])
  | c :: cs =>
    if c.isDigit then
      ((spanDigits cs).1.cons c, (spanDigits cs).2)
    else ([], c :: cs)

/-- Optional leading sign: `-1` for `'-'`, `+1` for `'+'` or no sign,
together with the remaining characters. -/
def parseSign (cs : List Char) : Int × List Char :=
  match cs with
  | [] => (1, [])
  | c :: r => if c = '-' then (-1, r) else if c = '+' then (1, r) else (1, cs)

/-- Optional fraction: when the input starts with `'.'`, the digits after
it; otherwise nothing.  Returns the fraction digits and the rest. -/
def parseFrac (cs : List Char) : List Char × List Char :=
  match cs with
  | [] => ([], [])
  | c :: r => if c = '.' then spanDigits r else ([], cs)

/-- Optional exponent marker: `some e` when the remaining characters are
empty or a well-formed `e`/`E` exponent part consuming the whole rest,
`none` otherwise. -/
def parseExp (cs : List Char) : Option Int :=
  match cs with
  | [] => some 0
  | c :: r =>
    if c = 'e' ∨ c = 'E' then
      if (spanDigits (parseSign r).2).1 = [] ∨ (spanDigits (parseSign r).2).2 ≠ [] then
        none
      else
        some ((parseSign r).1 * (digitsToNat (spanDigits (parseSign r).2).1 : Int))
    else none

/-- Assemble a parsed decimal from its sign, integer digits, fraction
digits, and trailing characters (which must form the exponent part).
The mantissa must contain at least one digit. -/
def parseMant (sgn : Int) (intPart fracPart rest : List Char) : Option PyDecimal :=
  if intPart = [] ∧ fracPart = [] then none
  else
    match parseExp rest with
    | none => none
    | some e =>
      some ⟨sgn * (digitsToNat (intPart ++ fracPart) : Int),
            e - (fracPart.length : Int)⟩

/-- Model of Python's `Decimal(v)` string parsing for finite numbers:
`[sign] digits [. digits] [(e|E) [sign] digits]`, with at least one
mantissa digit.  Returns `none` when `Decimal` would raise
`InvalidOperation`. -/
def parseDecimal (s : String) : Option PyDecimal :=
  parseMant (parseSign s.data).1
    (spanDigits (parseSign s.data).2).1
    (parseFrac (spanDigits (parseSign s.data).2).2).1
    (parseFrac (spanDigits (parseSign s.data).2).2).2

/-- Round `n / d` (with `d > 0`) to the nearest integer, ties away from
zero — Python's `ROUND_HALF_UP`. -/
def roundHalfUpDiv (n : Int) (d : Nat) : Int :=
  if 0 ≤ n then ((2 * n.toNat + d) / (2 * d) : Nat)
  else -(((2 * (-n).toNat + d) / (2 * d) : Nat) : Int)

/-- The signed coefficient of `amount.quantize(Decimal("0.01"),
rounding=ROUND_HALF_UP)` computed exactly: the round-half-up (ties away
from zero) count of cents.  For exponent `≥ -2` the value is already
exact at 2 places. -/
def quantizedCents (d : PyDecimal) : Int :=
  if 0 ≤ d.exp + 2 then d.coeff * (10 : Int) ^ (d.exp + 2).toNat
  else roundHalfUpDiv d.coeff ((10 : Nat) ^ (-(d.exp + 2)).toNat)

/-- `to_cents` from `app/models.py`, executed under Python's default
decimal context (precision 28, `InvalidOperation` trapped): `quantize`
raises `InvalidOperation` when the quantized result's coefficient would
exceed 28 digits, i.e. exactly when the rounded cents count reaches
`10 ^ 28` in magnitude (`none` embeds the raise); otherwise the function
returns the exact rounded integer number of cents (the subsequent
`* 100` and `to_integral_value` steps are exact: the product's trailing
two digits are zero, so the context rounding of the multiplication drops
nothing). -/
def to_cents (d : PyDecimal) : Option Int :=
  if (quantizedCents d).natAbs < 10 ^ 28 then some (quantizedCents d) else none

/-- Reference rounding on exact rational values: nearest integer, ties
away from zero (round-half-up in the spec's sense). -/
def halfUpRat (q : ℚ) : ℤ :=
  if 0 ≤ q then ⌊q + 1 / 2⌋ else -⌊-q + 1 / 2⌋

/-! ### Amount validation (`AmountIn.validate_amount` in `app/models.py`) -/

instance {ε α : Type} [DecidableEq ε] [DecidableEq α] : DecidableEq (Except ε α) :=
  fun x y =>
    match x, y with
    | .error e, .error f =>
      if h : e = f then .isTrue (by rw [h]) else .isFalse (fun hh => h (by cases hh; rfl))
    | .ok a, .ok b =>
      if h : a = b then .isTrue (by rw [h]) else .isFalse (fun hh => h (by cases hh; rfl))
    | .error _, .ok _ => .isFalse (fun hh => by cases hh)
    | .ok _, .error _ => .isFalse (fun hh => by cases hh)

/-- The three validation failures raised by `AmountIn.validate_amount`
(`ERR_AMOUNT_DECIMAL`, `ERR_AMOUNT_POSITIVE`, `ERR_AMOUNT_DECIMALS`). -/
inductive AmountErr
  | notDecimal
  | notPositive
  | tooManyDecimals
deriving DecidableEq, Repr

/-- `AmountIn.validate_amount` from `app/models.py`: parse with
`Decimal`, reject non-positive values (`dec <= 0`, tested on the signed
coefficient — the value `coeff * 10 ^ exp` is non-positive exactly when
`coeff` is, see `val_nonpos_iff`), then reject when the absolute value of
the decimal's exponent exceeds 2. -/
def validate_amount (v : String) : Except AmountErr String :=
  match parseDecimal v with
  | none => .error .notDecimal
  | some dec =>
    if dec.coeff ≤ 0 then .error .notPositive
    else if 2 < dec.exp.natAbs then .error .tooManyDecimals
    else .ok v

/-! ### In-memory store (`app/storage.py`) -/

/-- Errors raised by the store: `KeyError("account not found")`,
`ValueError("insufficient funds")`, `ValueError("account already exists")`. -/
inductive StoreErr
  | accountNotFound
  | insufficientFunds
  | accountAlreadyExists
deriving DecidableEq, Repr

/-- Lookup in an association list embedding a Python `dict`
(keys are unique in any state reachable from a `dict`). -/
def lookupBal : List (String × Int) → String → Option Int
  | [], _ => none
  | (k', v) :: rest, k => if k' = k then some v else lookupBal rest k

/-- `dict` assignment `bs[k] = v`: replace the value at `k`, or append a
new entry when `k` is absent. -/
def setBal : List (String × Int) → String → Int → List (String × Int)
  | [], k, v => [(k, v)]
  | (k', v') :: rest, k, v =>
    if k' = k then (k, v) :: rest else (k', v') :: setBal rest k v

/-- Insert a key into the lock registry's key set if absent. -/
def insertKey (ks : List String) (k : String) : List String :=
  if k ∈ ks then ks else ks ++ [k]

/-- `InMemoryStore` from `app/storage.py`: the balances `dict` and the
set of keys owning a lock in `_locks` (the lock objects themselves carry
no data relevant to sequential state). -/
structure InMemoryStore where
  balances : List (String × Int)
  locks : List String
deriving DecidableEq, Repr

namespace InMemoryStore

/-- `InMemoryStore.__init__`: copy the seed mapping and create one lock
per seeded account. -/
def init (initial : List (String × Int)) : InMemoryStore :=
  { balances := initial, locks := initial.map (·.1) }

/-- `InMemoryStore._get_lock`: create the account's lock if necessary.
Only the lock registry can change. -/
def _get_lock (s : InMemoryStore) (k : String) : InMemoryStore :=
  { s with locks := insertKey s.locks k }

/-- `InMemoryStore.has_account`. -/
def has_account (s : InMemoryStore) (k : String) : Bool :=
  (lookupBal s.balances k).isSome

/-- `InMemoryStore.get_balance_cents`: the balance, or
`KeyError("account not found")`.  A pure read; the store is unchanged. -/
def get_balance_cents (s : InMemoryStore) (k : String) : Except StoreErr Int :=
  match lookupBal s.balances k with
  | none => .error .accountNotFound
  | some b => .ok b

/-- `InMemoryStore.deposit`: check membership, take the account's lock,
add `amount` to the balance and return the new balance.  The result is
paired with the store state the operation leaves behind. -/
def deposit (s : InMemoryStore) (k : String) (amount : Int) :
    Except StoreErr Int × InMemoryStore :=
  match lookupBal s.balances k with
  | none => (.error .accountNotFound, s)
  | some b =>
    let s1 := _get_lock s k
    (.ok (b + amount), { s1 with balances := setBal s1.balances k (b + amount) })

/-- `InMemoryStore.withdraw`: check membership, take the account's lock,
read the balance, fail with `insufficient funds` when `amount > bal`,
otherwise store and return `bal - amount`. -/
def withdraw (s : InMemoryStore) (k : String) (amount : Int) :
    Except StoreErr Int × InMemoryStore :=
  match lookupBal s.balances k with
  | none => (.error .accountNotFound, s)
  | some bal =>
    let s1 := _get_lock s k
    if amount > bal then (.error .insufficientFunds, s1)
    else (.ok (bal - amount),
      { s1 with balances := setBal s1.balances k (bal - amount) })

/-- `InMemoryStore.create_account`: fail when the key exists, otherwise
insert the opening balance and a lock for the new account. -/
def create_account (s : InMemoryStore) (k : String) (opening : Int) :
    Except StoreErr Unit × InMemoryStore :=
  match lookupBal s.balances k with
  | none =>
    (.ok (), { balances := setBal s.balances k opening,
               locks := insertKey s.locks k })
  | some _ => (.error .accountAlreadyExists, s)

end InMemoryStore

/-! ### Sequences of store operations -/

/-- A mutating store operation with its arguments. -/
inductive Op
  | deposit (k : String) (a : Int)
  | withdraw (k : String) (a : Int)
  | create (k : String) (c : Int)

/-- The argument discipline of the spec: deposit and withdraw amounts are
strictly positive, opening balances are non-negative. -/
def Op.Ok : Op → Prop
  | .deposit _ a => 0 < a
  | .withdraw _ a => 0 < a
  | .create _ c => 0 ≤ c

/-- Apply one operation; a failing operation leaves the store in the
state the raising method leaves behind. -/
def applyOp (s : InMemoryStore) : Op → InMemoryStore
  | .deposit k a => (InMemoryStore.deposit s k a).2
  | .withdraw k a => (InMemoryStore.withdraw s k a).2
  | .create k c => (InMemoryStore.create_account s k c).2

/-- Run a sequence of operations left to right. -/
def runOps (s : InMemoryStore) (ops : List Op) : InMemoryStore :=
  ops.foldl applyOp s

/-- All stored balances are non-negative. -/
def AllNonneg (s : InMemoryStore) : Prop :=
  ∀ k b, lookupBal s.balances k = some b → 0 ≤ b

/-! ### Concurrency model of `InMemoryStore.deposit`

`deposit`'s critical section is `self._balances[k] += amount`: a read of
the balance followed by a write of `read value + amount`, executed while
holding the account's lock.  `K` identical depositor threads on one fresh
account are modelled by counting: `pending` threads have not yet entered
the critical section, `active` is the thread inside it (`some none` before
its read, `some (some v)` after reading `v`), and `done` threads have
written and released the lock. -/

/-- Global state of `K` concurrent `deposit` calls on one account. -/
structure DepositRace where
  bal : Int
  pending : Nat
  active : Option (Option Int)
  done : Nat
deriving DecidableEq, Repr

/-- Interleaving semantics of the lock-protected read-modify-write of
`deposit`: acquire the free lock, read the balance, then write
`read value + a` and release. -/
inductive DepStep (a : Int) : DepositRace → DepositRace → Prop
  | acquire (s : DepositRace) (h : 0 < s.pending) (hl : s.active = none) :
      DepStep a s ⟨s.bal, s.pending - 1, some none, s.done⟩
  | read (s : DepositRace) (h : s.active = some none) :
      DepStep a s ⟨s.bal, s.pending, some (some s.bal), s.done⟩
  | write (s : DepositRace) (v : Int) (h : s.active = some (some v)) :
      DepStep a s ⟨v + a, s.pending, none, s.done + 1⟩

/-- Executions: reflexive-transitive closure of single steps. -/
def DepReach (a : Int) : DepositRace → DepositRace → Prop :=
  Relation.ReflTransGen (DepStep a)

/-! ### Digit and string lemmas -/

theorem digitChar_isDigit {d : Nat} (h : d < 10) : (digitChar d).isDigit = true := by
  interval_cases d <;> decide

theorem digitVal_digitChar {d : Nat} (h : d < 10) : digitVal (digitChar d) = d := by
  interval_cases d <;> decide

theorem isDigit_ne_minus {c : Char} (h : c.isDigit = true) : c ≠ '-' := by
  intro hc; subst hc; exact absurd h (by decide)

theorem isDigit_ne_plus {c : Char} (h : c.isDigit = true) : c ≠ '+' := by
  intro hc; subst hc; exact absurd h (by decide)

theorem digitsToNat_step (l : List Char) (acc : Nat) :
    l.foldl (fun acc c => acc * 10 + digitVal c) acc =
      acc * 10 ^ l.length + digitsToNat l := by
  induction l generalizing acc with
  | nil => simp [digitsToNat]
  | cons c t ih =>
    have hd : digitsToNat (c :: t) =
        t.foldl (fun acc c => acc * 10 + digitVal c) (digitVal c) := by
      simp [digitsToNat]
    simp only [List.foldl_cons, List.length_cons, hd]
    rw [ih, ih (digitVal c)]
    ring

theorem digitsToNat_append (A B : List Char) :
    digitsToNat (A ++ B) = digitsToNat A * 10 ^ B.length + digitsToNat B := by
  unfold digitsToNat
  rw [List.foldl_append]
  exact digitsToNat_step B _

theorem spanDigits_all {A : List Char} (hA : ∀ c ∈ A, c.isDigit = true) :
    spanDigits A = (A, []) := by
  induction A with
  | nil => rfl
  | cons c t ih =>
    have hc : c.isDigit = true := hA c (by simp)
    have ht : ∀ x ∈ t, x.isDigit = true := fun x hx => hA x (by simp [hx])
    simp [spanDigits, hc, ih ht]

theorem spanDigits_append_stop {A : List Char} (hA : ∀ c ∈ A, c.isDigit = true)
    {b : Char} (hb : b.isDigit = false) (B : List Char) :
    spanDigits (A ++ b :: B) = (A, b :: B) := by
  induction A with
  | nil => simp [spanDigits, hb]
  | cons c t ih =>
    have hc : c.isDigit = true := hA c (by simp)
    have ht : ∀ x ∈ t, x.isDigit = true := fun x hx => hA x (by simp [hx])
    simp [spanDigits, hc, ih ht]

theorem natDigitChars_spec :
    ∀ fuel n, n ≤ fuel →
      (∀ c ∈ natDigitChars fuel n, c.isDigit = true) ∧
        digitsToNat (natDigitChars fuel n) = n := by
  intro fuel
  induction fuel with
  | zero =>
    intro n hn
    interval_cases n
    exact ⟨by simp [natDigitChars], by simp [natDigitChars, digitsToNat]⟩
  | succ f ih =>
    intro n hn
    by_cases h0 : n = 0
    · subst h0
      exact ⟨by simp [natDigitChars], by simp [natDigitChars, digitsToNat]⟩
    · have hdiv : n / 10 ≤ f := by omega
      obtain ⟨ihd, ihv⟩ := ih (n / 10) hdiv
      have hlt : n % 10 < 10 := Nat.mod_lt n (by norm_num)
      constructor
      · intro c hc
        rw [natDigitChars] at hc
        simp only [h0, if_false, List.mem_append, List.mem_singleton] at hc
        rcases hc with hc | hc
        · exact ihd c hc
        · subst hc; exact digitChar_isDigit hlt
      · rw [natDigitChars]
        simp only [h0, if_false]
        rw [digitsToNat_append, ihv]
        have : digitsToNat [digitChar (n % 10)] = n % 10 := by
          simp [digitsToNat, digitVal_digitChar hlt]
        rw [this]
        simp only [List.length_singleton, pow_one]
        omega

theorem natToDecStr_spec (n : Nat) :
    (natToDecStr n).data ≠ [] ∧ (∀ c ∈ (natToDecStr n).data, c.isDigit = true) ∧
      digitsToNat (natToDecStr n).data = n := by
  by_cases h0 : n = 0
  · subst h0
    exact ⟨by decide, by decide, by decide⟩
  · obtain ⟨hd, hv⟩ := natDigitChars_spec n n le_rfl
    have hdata : (natToDecStr n).data = natDigitChars n n := by
      unfold natToDecStr
      simp [h0]
    refine ⟨?_, by rw [hdata]; exact hd, by rw [hdata]; exact hv⟩
    rw [hdata]
    obtain ⟨f, rfl⟩ : ∃ f, n = f + 1 := ⟨n - 1, by omega⟩
    rw [natDigitChars]
    simp [h0]

theorem pad2_spec : ∀ n, n < 100 →
    (pad2 n).data.length = 2 ∧ (∀ c ∈ (pad2 n).data, c.isDigit = true) ∧
      digitsToNat (pad2 n).data = n := by decide

theorem val_nonpos_iff (d : PyDecimal) : d.val ≤ 0 ↔ d.coeff ≤ 0 := by
  have h10 : (0 : ℚ) < (10 : ℚ) ^ d.exp := zpow_pos (by norm_num) _
  unfold PyDecimal.val
  constructor
  · intro h
    by_contra hc
    push_neg at hc
    have hc' : (0 : ℚ) < (d.coeff : ℚ) := by exact_mod_cast hc
    nlinarith
  · intro h
    have h' : (d.coeff : ℚ) ≤ 0 := by exact_mod_cast h
    nlinarith

theorem cents_to_str_data (n : Int) :
    (cents_to_str n).data =
      (if n < 0 then ['-'] else []) ++ ((natToDecStr (n.natAbs / 100)).data ++
        '.' :: (pad2 (n.natAbs % 100)).data) := by
  unfold cents_to_str
  by_cases h : n < 0 <;>
    simp [h, String.data_append]

theorem parseDecimal_cents_to_str (n : Int) :
    parseDecimal (cents_to_str n) = some ⟨n, -2⟩ := by
  obtain ⟨hWne, hWdig, hWval⟩ := natToDecStr_spec (n.natAbs / 100)
  obtain ⟨hFlen, hFdig, hFval⟩ := pad2_spec (n.natAbs % 100) (Nat.mod_lt _ (by norm_num))
  unfold parseDecimal
  rw [cents_to_str_data n]
  revert hWne hWdig hWval hFlen hFdig hFval
  generalize (natToDecStr (n.natAbs / 100)).data = W
  generalize (pad2 (n.natAbs % 100)).data = F
  intro hWne hWdig hWval hFlen hFdig hFval
  have hspan : spanDigits (W ++ '.' :: F) = (W, '.' :: F) :=
    spanDigits_append_stop hWdig (by decide) F
  have hfrac : parseFrac ('.' :: F) = (F, []) := by
    simp [parseFrac, spanDigits_all hFdig]
  have hmantval : digitsToNat (W ++ F) = n.natAbs := by
    rw [digitsToNat_append, hWval, hFval, hFlen]
    omega
  have hsign : parseSign ((if n < 0 then ['-'] else []) ++ (W ++ '.' :: F)) =
      (if n < 0 then -1 else 1, W ++ '.' :: F) := by
    by_cases h : n < 0
    · simp [h, parseSign]
    · simp only [h, if_false, List.nil_append]
      obtain ⟨c, W', rfl⟩ : ∃ c W', W = c :: W' := by
        cases hWc : W with
        | nil => exact absurd hWc hWne
        | cons c W' => exact ⟨c, W', rfl⟩
      have hc : c.isDigit = true := hWdig c (by simp)
      simp [parseSign, isDigit_ne_minus hc, isDigit_ne_plus hc]
  rw [hsign]
  simp only [hspan, hfrac, parseMant, parseExp]
  rw [if_neg (by simp [hWne])]
  simp only [Option.some.injEq, PyDecimal.mk.injEq]
  rw [hmantval, hFlen]
  by_cases h : n < 0
  · simp only [h, if_true]
    constructor <;> omega
  · simp only [h, if_false]
    constructor <;> omega

/-! ### Rounding lemmas -/

theorem halfUpRat_intCast (z : ℤ) : halfUpRat (z : ℚ) = z := by
  have hhalf : ⌊(1 / 2 : ℚ)⌋ = 0 := by
    rw [Int.floor_eq_zero_iff]
    constructor <;> norm_num
  unfold halfUpRat
  by_cases h : (0 : ℚ) ≤ (z : ℚ)
  · rw [if_pos h, Int.floor_int_add, hhalf, add_zero]
  · rw [if_neg h, show -(z : ℚ) = ((-z : ℤ) : ℚ) by push_cast; ring,
      Int.floor_int_add, hhalf, add_zero, neg_neg]

theorem floor_half_div (a : ℤ) (d : ℕ) (hd : 0 < d) (ha : 0 ≤ a) :
    ⌊(a : ℚ) / (d : ℚ) + 1 / 2⌋ = (((2 * a.toNat + d) / (2 * d) : ℕ) : ℤ) := by
  have hd0 : ((d : ℚ)) ≠ 0 := by positivity
  have h1 : (a : ℚ) / d + 1 / 2 = (((2 * a + d : ℤ) : ℚ)) / (((2 * d : ℕ) : ℚ)) := by
    push_cast
    field_simp
    ring
  rw [h1, Rat.floor_intCast_div_natCast, Int.natCast_div]
  congr 1
  push_cast
  omega

theorem roundHalfUpDiv_eq (z : ℤ) (d : ℕ) (hd : 0 < d) :
    roundHalfUpDiv z d = halfUpRat ((z : ℚ) / (d : ℚ)) := by
  have hd0 : (0 : ℚ) < (d : ℚ) := by exact_mod_cast hd
  unfold roundHalfUpDiv halfUpRat
  by_cases hz : 0 ≤ z
  · have hq : (0 : ℚ) ≤ (z : ℚ) / (d : ℚ) := by positivity
    rw [if_pos hz, if_pos hq, floor_half_div z d hd hz]
  · have hzq : ((z : ℚ)) < 0 := by exact_mod_cast not_le.mp hz
    have hq : ¬(0 : ℚ) ≤ (z : ℚ) / (d : ℚ) := by
      push_neg
      exact div_neg_of_neg_of_pos hzq hd0
    rw [if_neg hz, if_neg hq,
      show -((z : ℚ) / (d : ℚ)) = ((-z : ℤ) : ℚ) / (d : ℚ) by push_cast; ring,
      floor_half_div (-z) d hd (by omega)]

theorem quantizedCents_eq_halfUpRat (d : PyDecimal) :
    quantizedCents d = halfUpRat (100 * d.val) := by
  have h10 : (10 : ℚ) ≠ 0 := by norm_num
  unfold quantizedCents PyDecimal.val
  by_cases h : 0 ≤ d.exp + 2
  · rw [if_pos h]
    have he : ((d.exp + 2).toNat : ℤ) = d.exp + 2 := Int.toNat_of_nonneg h
    have hval : (100 : ℚ) * ((d.coeff : ℚ) * (10 : ℚ) ^ d.exp) =
        ((d.coeff * (10 : ℤ) ^ (d.exp + 2).toNat : ℤ) : ℚ) := by
      push_cast
      rw [← zpow_natCast (10 : ℚ) (d.exp + 2).toNat, he,
        show (100 : ℚ) = (10 : ℚ) ^ (2 : ℤ) by norm_num,
        zpow_add₀ h10]
      ring
    rw [hval, halfUpRat_intCast]
  · rw [if_neg h]
    have hm : (((-(d.exp + 2)).toNat : ℤ)) = -(d.exp + 2) :=
      Int.toNat_of_nonneg (by omega)
    rw [roundHalfUpDiv_eq _ _ (pow_pos (by norm_num) _)]
    congr 1
    push_cast
    rw [← zpow_natCast (10 : ℚ) (-(d.exp + 2)).toNat, hm, zpow_neg,
      div_eq_mul_inv, inv_inv,
      show (100 : ℚ) = (10 : ℚ) ^ (2 : ℤ) by norm_num,
      zpow_add₀ h10]
    ring

theorem halfUpRat_neg (q : ℚ) : halfUpRat (-q) = -halfUpRat q := by
  unfold halfUpRat
  rcases lt_trichotomy q 0 with h | h | h
  · rw [if_pos (by linarith), if_neg (by linarith), neg_neg]
  · subst h
    norm_num
  · rw [if_neg (by simpa using h), if_pos (by linarith), neg_neg]

/-! ### Store lemmas -/

theorem lookupBal_setBal (bs : List (String × Int)) (k k' : String) (v : Int) :
    lookupBal (setBal bs k v) k' = if k = k' then some v else lookupBal bs k' := by
  induction bs with
  | nil =>
    by_cases h : k = k' <;> simp [setBal, lookupBal, h]
  | cons p rest ih =>
    obtain ⟨a, b⟩ := p
    by_cases hak : a = k
    · by_cases h : k = k' <;> simp [setBal, lookupBal, hak, h]
    · by_cases h : k = k' <;> by_cases hak' : a = k' <;>
        simp_all [setBal, lookupBal]

theorem lookupBal_mem {bs : List (String × Int)} {k : String} {b : Int}
    (h : lookupBal bs k = some b) : ∃ p ∈ bs, p.2 = b := by
  induction bs with
  | nil => simp [lookupBal] at h
  | cons p rest ih =>
    obtain ⟨a, v⟩ := p
    by_cases hak : a = k
    · simp [lookupBal, hak] at h
      exact ⟨(a, v), by simp, h⟩
    · simp [lookupBal, hak] at h
      obtain ⟨q, hq, hqv⟩ := ih h
      exact ⟨q, by simp [hq], hqv⟩

namespace InMemoryStore

theorem _get_lock_balances (s : InMemoryStore) (k : String) :
    (s._get_lock k).balances = s.balances := rfl

theorem get_balance_none {s : InMemoryStore} {k : String}
    (h : lookupBal s.balances k = none) :
    s.get_balance_cents k = .error .accountNotFound := by
  unfold get_balance_cents
  rw [h]

theorem get_balance_some {s : InMemoryStore} {k : String} {b : Int}
    (h : lookupBal s.balances k = some b) :
    s.get_balance_cents k = .ok b := by
  unfold get_balance_cents
  rw [h]

theorem deposit_none {s : InMemoryStore} {k : String} {a : Int}
    (h : lookupBal s.balances k = none) :
    s.deposit k a = (.error .accountNotFound, s) := by
  unfold deposit
  rw [h]

theorem deposit_some {s : InMemoryStore} {k : String} {a b : Int}
    (h : lookupBal s.balances k = some b) :
    s.deposit k a = (.ok (b + a),
      { s._get_lock k with balances := setBal s.balances k (b + a) }) := by
  unfold deposit
  rw [h]
  rfl

theorem withdraw_none {s : InMemoryStore} {k : String} {a : Int}
    (h : lookupBal s.balances k = none) :
    s.withdraw k a = (.error .accountNotFound, s) := by
  unfold withdraw
  rw [h]

theorem withdraw_some_lt {s : InMemoryStore} {k : String} {a b : Int}
    (h : lookupBal s.balances k = some b) (hlt : b < a) :
    s.withdraw k a = (.error .insufficientFunds, s._get_lock k) := by
  unfold withdraw
  rw [h]
  simp [hlt]

theorem withdraw_some_ge {s : InMemoryStore} {k : String} {a b : Int}
    (h : lookupBal s.balances k = some b) (hge : ¬b < a) :
    s.withdraw k a = (.ok (b - a),
      { s._get_lock k with balances := setBal s.balances k (b - a) }) := by
  unfold withdraw
  rw [h]
  simp only [hge, if_false, gt_iff_lt]
  rfl

theorem create_none {s : InMemoryStore} {k : String} {c : Int}
    (h : lookupBal s.balances k = none) :
    s.create_account k c =
      (.ok (), ⟨setBal s.balances k c, insertKey s.locks k⟩) := by
  unfold create_account
  rw [h]

theorem create_some {s : InMemoryStore} {k : String} {c b : Int}
    (h : lookupBal s.balances k = some b) :
    s.create_account k c = (.error .accountAlreadyExists, s) := by
  unfold create_account
  rw [h]

end InMemoryStore

/-! ### Claim theorems: store operations -/

/-- C1: for an existing account with balance `b` and amount `a > 0`,
`withdraw` fails with `InsufficientFunds` iff `a` exceeds `b`; on that
failure the stored balances are unchanged; on success the returned and
stored balance is `b - a`.  Withdrawing exactly `b` succeeds leaving
balance `0`; withdrawing `b + 1` fails leaving the balances unchanged. -/
theorem withdraw_insufficient_iff (s : InMemoryStore) (k : String) (a b : Int)
    (hb : lookupBal s.balances k = some b) (ha : 0 < a) :
    ((s.withdraw k a).1 = .error .insufficientFunds ↔ b < a)
    ∧ (b < a → (s.withdraw k a).2.balances = s.balances)
    ∧ (a ≤ b → (s.withdraw k a).1 = .ok (b - a)
        ∧ lookupBal (s.withdraw k a).2.balances k = some (b - a))
    ∧ ((s.withdraw k b).1 = .ok 0
        ∧ lookupBal (s.withdraw k b).2.balances k = some 0)
    ∧ ((s.withdraw k (b + 1)).1 = .error .insufficientFunds
        ∧ (s.withdraw k (b + 1)).2.balances = s.balances) := by
  refine ⟨?_, ?_, ?_, ?_, ?_⟩
  · by_cases hba : b < a
    · rw [InMemoryStore.withdraw_some_lt hb hba]
      simp [hba]
    · rw [InMemoryStore.withdraw_some_ge hb hba]
      simp [hba]
  · intro hba
    rw [InMemoryStore.withdraw_some_lt hb hba]
    rfl
  · intro hba
    rw [InMemoryStore.withdraw_some_ge hb (not_lt.mpr hba)]
    exact ⟨rfl, by simp [lookupBal_setBal]⟩
  · rw [InMemoryStore.withdraw_some_ge hb (lt_irrefl b)]
    exact ⟨by norm_num, by simp [lookupBal_setBal]⟩
  · rw [InMemoryStore.withdraw_some_lt hb (by omega)]
    exact ⟨rfl, rfl⟩

/-- C6: for an existing account with balance `b` and amount `a > 0`,
`deposit` succeeds, returns `b + a`, stores `b + a`, and leaves every
other account's balance unchanged. -/
theorem deposit_adds (s : InMemoryStore) (k : String) (a b : Int)
    (hb : lookupBal s.balances k = some b) (ha : 0 < a) :
    (s.deposit k a).1 = .ok (b + a)
    ∧ lookupBal (s.deposit k a).2.balances k = some (b + a)
    ∧ ∀ k', k' ≠ k → lookupBal (s.deposit k a).2.balances k' =
        lookupBal s.balances k' := by
  rw [InMemoryStore.deposit_some hb]
  refine ⟨rfl, by simp [lookupBal_setBal], ?_⟩
  intro k' hk'
  simp only [lookupBal_setBal]
  rw [if_neg (fun h => hk' h.symm)]

/-- C5: each of `get_balance_cents`, `deposit`, `withdraw` fails with
`AccountNotFound` iff the key is unknown, and on an unknown key the
operation leaves the store (balances and lock registry) unchanged. -/
theorem account_not_found_iff (s : InMemoryStore) (k : String) (a : Int) :
    (s.get_balance_cents k = .error .accountNotFound ↔
        lookupBal s.balances k = none)
    ∧ ((s.deposit k a).1 = .error .accountNotFound ↔
        lookupBal s.balances k = none)
    ∧ ((s.withdraw k a).1 = .error .accountNotFound ↔
        lookupBal s.balances k = none)
    ∧ (lookupBal s.balances k = none →
        (s.deposit k a).2 = s ∧ (s.withdraw k a).2 = s) := by
  cases hlk : lookupBal s.balances k with
  | none =>
    rw [InMemoryStore.get_balance_none hlk, InMemoryStore.deposit_none hlk,
      InMemoryStore.withdraw_none hlk]
    exact ⟨by simp, by simp, by simp, fun _ => ⟨rfl, rfl⟩⟩
  | some b =>
    refine ⟨?_, ?_, ?_, by simp⟩
    · rw [InMemoryStore.get_balance_some hlk]
      simp
    · rw [InMemoryStore.deposit_some hlk]
      simp
    · by_cases hba : b < a
      · rw [InMemoryStore.withdraw_some_lt hlk hba]
        simp
      · rw [InMemoryStore.withdraw_some_ge hlk hba]
        simp

/-- C10: the store validates nothing itself: `deposit` accepts any
integer amount (zero or negative included) and stores `b + a`, and
`create_account` accepts any opening balance (negative included), after
which `get_balance_cents` returns it. -/
theorem store_level_no_validation (s : InMemoryStore) (k k2 : String)
    (a b c : Int) (hb : lookupBal s.balances k = some b)
    (h2 : lookupBal s.balances k2 = none) :
    (s.deposit k a).1 = .ok (b + a)
    ∧ lookupBal (s.deposit k a).2.balances k = some (b + a)
    ∧ (s.create_account k2 c).1 = .ok ()
    ∧ (s.create_account k2 c).2.get_balance_cents k2 = .ok c := by
  rw [InMemoryStore.deposit_some hb, InMemoryStore.create_none h2]
  refine ⟨rfl, by simp [lookupBal_setBal], rfl, ?_⟩
  exact InMemoryStore.get_balance_some (by simp [lookupBal_setBal])

/-! ### Claim theorems: non-negativity invariant -/

theorem applyOp_nonneg {s : InMemoryStore} (hs : AllNonneg s) {op : Op}
    (hop : op.Ok) : AllNonneg (applyOp s op) := by
  cases op with
  | deposit k a =>
    cases hlk : lookupBal s.balances k with
    | none =>
      simpa only [applyOp, InMemoryStore.deposit_none hlk] using hs
    | some b =>
      intro k' b' hb'
      simp only [applyOp, InMemoryStore.deposit_some hlk, lookupBal_setBal] at hb'
      by_cases hkk : k = k'
      · rw [if_pos hkk] at hb'
        have hb0 : 0 ≤ b := hs k b hlk
        have hpos : (0 : Int) < a := hop
        injection hb' with h
        omega
      · rw [if_neg hkk] at hb'
        exact hs k' b' hb'
  | withdraw k a =>
    cases hlk : lookupBal s.balances k with
    | none =>
      simpa only [applyOp, InMemoryStore.withdraw_none hlk] using hs
    | some b =>
      by_cases hba : b < a
      · simpa only [applyOp, InMemoryStore.withdraw_some_lt hlk hba] using hs
      · intro k' b' hb'
        simp only [applyOp, InMemoryStore.withdraw_some_ge hlk hba,
          lookupBal_setBal] at hb'
        by_cases hkk : k = k'
        · rw [if_pos hkk] at hb'
          injection hb' with h
          omega
        · rw [if_neg hkk] at hb'
          exact hs k' b' hb'
  | create k c =>
    cases hlk : lookupBal s.balances k with
    | some b =>
      simpa only [applyOp, InMemoryStore.create_some hlk] using hs
    | none =>
      intro k' b' hb'
      simp only [applyOp, InMemoryStore.create_none hlk, lookupBal_setBal] at hb'
      by_cases hkk : k = k'
      · rw [if_pos hkk] at hb'
        have hc : (0 : Int) ≤ c := hop
        injection hb' with h
        omega
      · rw [if_neg hkk] at hb'
        exact hs k' b' hb'

/-- C2: starting from a seed with only non-negative balances, after any
sequence of operations whose deposit/withdraw amounts are strictly
positive and whose opening balances are non-negative (failed operations
leave the state unchanged), every stored balance is non-negative. -/
theorem balances_nonneg_invariant (seed : List (String × Int))
    (hseed : ∀ p ∈ seed, 0 ≤ p.2) (ops : List Op)
    (hops : ∀ op ∈ ops, op.Ok) :
    AllNonneg (runOps (InMemoryStore.init seed) ops) := by
  have h0 : AllNonneg (InMemoryStore.init seed) := by
    intro k b hb
    obtain ⟨p, hp, hpv⟩ := lookupBal_mem hb
    rw [← hpv]
    exact hseed p hp
  suffices H : ∀ (l : List Op) (s : InMemoryStore), AllNonneg s →
      (∀ op ∈ l, op.Ok) → AllNonneg (runOps s l) from H ops _ h0 hops
  intro l
  induction l with
  | nil => intro s hs _; exact hs
  | cons op rest ih =>
    intro s hs hl
    exact ih (applyOp s op) (applyOp_nonneg hs (hl op (by simp)))
      (fun o ho => hl o (by simp [ho]))

/-! ### Claim theorems: money codec and validation -/

theorem quantizedCents_int (n : Int) : quantizedCents ⟨n, -2⟩ = n := by
  unfold quantizedCents
  norm_num

/-- C3 counterexample: at `n = 10 ^ 28` minor units the formatted string
parses back to the decimal `10 ^ 28 × 10 ^ -2`, whose quantized
coefficient has 29 digits, so `quantize` raises `InvalidOperation` under
the default 28-digit context — the round-trip returns no value at all
instead of `n`. -/
theorem parse_format_roundtrip_counterexample :
    (parseDecimal (cents_to_str ((10 : Int) ^ 28))).bind to_cents = none
    ∧ (none : Option Int) ≠ some ((10 : Int) ^ 28) := by
  refine ⟨?_, by simp⟩
  rw [parseDecimal_cents_to_str]
  show to_cents ⟨(10 : Int) ^ 28, -2⟩ = none
  unfold to_cents
  rw [quantizedCents_int]
  rw [if_neg]
  intro hlt
  rw [Int.natAbs_pow] at hlt
  norm_num at hlt

/-- C3 (amended): formatting then parsing round-trips exactly,
`to_cents (Decimal (cents_to_str n)) = n`, for every integer `n` of
magnitude below `10 ^ 28` minor units — the bound that the default
decimal context's 28-digit precision imposes in `quantize`; at or above
that magnitude the codec raises `InvalidOperation` instead of returning
a value. -/
theorem parse_format_roundtrip (n : Int) :
    (n.natAbs < 10 ^ 28 →
      (parseDecimal (cents_to_str n)).bind to_cents = some n)
    ∧ (10 ^ 28 ≤ n.natAbs →
      (parseDecimal (cents_to_str n)).bind to_cents = none) := by
  constructor
  · intro h
    rw [parseDecimal_cents_to_str]
    show to_cents ⟨n, -2⟩ = some n
    unfold to_cents
    rw [quantizedCents_int, if_pos h]
  · intro h
    rw [parseDecimal_cents_to_str]
    show to_cents ⟨n, -2⟩ = none
    unfold to_cents
    rw [quantizedCents_int, if_neg (not_lt.mpr h)]

/-- C7 counterexample: `"-0.001"` is a syntactically valid negative
decimal input, yet `to_cents` yields `0`, which is not a negative
integer. -/
theorem to_cents_negative_counterexample :
    parseDecimal "-0.001" = some ⟨-1, -3⟩
    ∧ (PyDecimal.mk (-1) (-3)).val < 0
    ∧ to_cents ⟨-1, -3⟩ = some 0 := by
  refine ⟨rfl, ?_, by decide⟩
  have h10 : (0 : ℚ) < (10 : ℚ) ^ (-3 : ℤ) := zpow_pos (by norm_num) _
  show ((-1 : ℤ) : ℚ) * (10 : ℚ) ^ (-3 : ℤ) < 0
  push_cast
  nlinarith

/-- C7 (amended): whenever the rounded cents magnitude stays below the
default context's `10 ^ 28` bound, `to_cents` returns the round-half-up
(ties away from zero) rounding of the value times 100 — and otherwise
`quantize` raises `InvalidOperation` — so parsing `"0.005"` yields `1`
minor unit; on a negative input the outcome is the negation of the
outcome for the absolute value, and any returned result is a negative
integer whenever the value is at most `-0.005`. -/
theorem to_cents_half_up_spec :
    (∀ d : PyDecimal, to_cents d =
        if (halfUpRat (100 * d.val)).natAbs < 10 ^ 28
        then some (halfUpRat (100 * d.val)) else none)
    ∧ (parseDecimal "0.005").bind to_cents = some 1
    ∧ (parseDecimal "-5.00").bind to_cents = some (-500)
    ∧ (∀ d : PyDecimal, to_cents ⟨-d.coeff, d.exp⟩ =
        (to_cents d).map (fun c => -c))
    ∧ (∀ (d : PyDecimal) (c : Int), d.val ≤ -(1 / 200 : ℚ) →
        to_cents d = some c → c < 0) := by
  have hodd : ∀ d : PyDecimal,
      quantizedCents ⟨-d.coeff, d.exp⟩ = -quantizedCents d := by
    intro d
    rw [quantizedCents_eq_halfUpRat, quantizedCents_eq_halfUpRat]
    have hval : (PyDecimal.mk (-d.coeff) d.exp).val = -d.val := by
      unfold PyDecimal.val
      push_cast
      ring
    rw [hval, show (100 : ℚ) * -d.val = -(100 * d.val) by ring, halfUpRat_neg]
  refine ⟨?_, by decide, by decide, ?_, ?_⟩
  · intro d
    unfold to_cents
    rw [quantizedCents_eq_halfUpRat]
  · intro d
    unfold to_cents
    rw [hodd d, Int.natAbs_neg]
    by_cases h : (quantizedCents d).natAbs < 10 ^ 28
    · rw [if_pos h, if_pos h]
      rfl
    · rw [if_neg h, if_neg h]
      rfl
  · intro d c hd hc
    unfold to_cents at hc
    rw [quantizedCents_eq_halfUpRat] at hc
    by_cases h : (halfUpRat (100 * d.val)).natAbs < 10 ^ 28
    · rw [if_pos h] at hc
      injection hc with hc'
      rw [← hc']
      have hq : 100 * d.val ≤ -(1 / 2 : ℚ) := by linarith
      unfold halfUpRat
      rw [if_neg (by linarith)]
      have h1 : (1 : ℚ) ≤ -(100 * d.val) + 1 / 2 := by linarith
      have h2 : (1 : ℤ) ≤ ⌊-(100 * d.val) + 1 / 2⌋ := by
        rw [Int.le_floor]
        exact_mod_cast h1
      omega
    · rw [if_neg h] at hc
      exact absurd hc (by simp)

/-- C8: `cents_to_str` renders a leading minus sign exactly when the
input is negative, followed by a non-empty run of digits, a point, and
exactly two digits; `-150` renders as `"-1.50"` and `0` as `"0.00"`. -/
theorem cents_to_str_format :
    (∀ n : Int, ∃ w d1 d2, (cents_to_str n).data =
        (if n < 0 then ['-'] else []) ++ w ++ ['.', d1, d2]
      ∧ w ≠ [] ∧ (∀ c ∈ w, c.isDigit = true)
      ∧ d1.isDigit = true ∧ d2.isDigit = true)
    ∧ cents_to_str (-150) = "-1.50" ∧ cents_to_str 0 = "0.00" := by
  refine ⟨?_, by decide, by decide⟩
  intro n
  obtain ⟨hWne, hWdig, _⟩ := natToDecStr_spec (n.natAbs / 100)
  obtain ⟨hFlen, hFdig, _⟩ := pad2_spec (n.natAbs % 100) (Nat.mod_lt _ (by norm_num))
  obtain ⟨d1, d2, hF⟩ : ∃ d1 d2, (pad2 (n.natAbs % 100)).data = [d1, d2] := by
    cases hc : (pad2 (n.natAbs % 100)).data with
    | nil => rw [hc] at hFlen; simp at hFlen
    | cons x t =>
      cases t with
      | nil => rw [hc] at hFlen; simp at hFlen
      | cons y u =>
        cases u with
        | nil => exact ⟨x, y, rfl⟩
        | cons z w => rw [hc] at hFlen; simp at hFlen
  refine ⟨(natToDecStr (n.natAbs / 100)).data, d1, d2, ?_, hWne, hWdig, ?_, ?_⟩
  · rw [cents_to_str_data n, hF]
    simp [List.append_assoc]
  · exact hFdig d1 (by rw [hF]; simp)
  · exact hFdig d2 (by rw [hF]; simp)

/-- C4: the request-body validation contradicts its own documented rule
("amount must have at most 2 decimal places"): the input `"1E3"` parses
as the exact decimal `1 × 10³` (a positive value with zero fractional
digits), yet `validate_amount` rejects it with the too-many-decimals
error because it tests `|exponent| ≤ 2` instead of the number of
fractional digits.  The spec's four examples are all correctly rejected,
and a well-formed amount is accepted. -/
theorem validate_amount_exponent_divergence :
    parseDecimal "1E3" = some ⟨1, 3⟩
    ∧ 0 < (PyDecimal.mk 1 3).val
    ∧ fracDigits ⟨1, 3⟩ = 0
    ∧ validate_amount "1E3" = .error .tooManyDecimals
    ∧ validate_amount "1.234" = .error .tooManyDecimals
    ∧ validate_amount "-5.00" = .error .notPositive
    ∧ validate_amount "0.00" = .error .notPositive
    ∧ validate_amount "abc" = .error .notDecimal
    ∧ validate_amount "10.50" = .ok "10.50" := by
  refine ⟨rfl, ?_, rfl, rfl, rfl, rfl, rfl, rfl, rfl⟩
  have h10 : (0 : ℚ) < (10 : ℚ) ^ (3 : ℤ) := zpow_pos (by norm_num) _
  show (0 : ℚ) < ((1 : ℤ) : ℚ) * (10 : ℚ) ^ (3 : ℤ)
  push_cast
  nlinarith

/-! ### Claim theorems: concurrency -/

/-- Inductive invariant of the deposit race: the balance equals `a` times
the number of completed deposits, a thread that has read saw the current
balance (it still holds the lock, so nothing was written since), and
thread counts are conserved. -/
def RaceInv (K : Nat) (a : Int) (s : DepositRace) : Prop :=
  s.bal = s.done * a
  ∧ (∀ v, s.active = some (some v) → v = s.bal)
  ∧ s.pending + (if s.active.isSome then 1 else 0) + s.done = K

theorem raceInv_step {K : Nat} {a : Int} {s s' : DepositRace}
    (h : DepStep a s s') (hi : RaceInv K a s) : RaceInv K a s' := by
  obtain ⟨h1, h2, h3⟩ := hi
  cases h with
  | acquire hp hl =>
    refine ⟨h1, ?_, ?_⟩
    · intro v hv
      simp at hv
    · rw [hl] at h3
      simp only [Option.isSome_none, Bool.false_eq_true, if_false] at h3
      simp only [Option.isSome_some, if_true]
      omega
  | read hac =>
    refine ⟨h1, ?_, ?_⟩
    · intro v hv
      simp only [Option.some.injEq] at hv
      exact hv.symm
    · rw [hac] at h3
      simpa using h3
  | write v hac =>
    have hv : v = s.bal := h2 v hac
    refine ⟨?_, ?_, ?_⟩
    · show v + a = ((s.done + 1 : Nat) : Int) * a
      rw [hv, h1]
      push_cast
      ring
    · intro w hw
      simp at hw
    · rw [hac] at h3
      simp only [Option.isSome_some, if_true] at h3
      simp only [Option.isSome_none, Bool.false_eq_true, if_false]
      omega

theorem raceInv_reach {K : Nat} {a : Int} {s : DepositRace}
    (h : DepReach a ⟨0, K, none, 0⟩ s) : RaceInv K a s := by
  unfold DepReach at h
  induction h with
  | refl => exact ⟨by simp, by simp, by simp⟩
  | tail hst hstep ih => exact raceInv_step hstep ih

/-- C9: any complete interleaved execution of `K` concurrent deposits of
amount `a > 0` on one fresh account with balance `0` (every thread has
acquired the lock, read, written and released) ends with balance exactly
`K * a`: the per-account lock rules out lost updates. -/
theorem concurrent_deposits_sum (K : Nat) (a : Int) (ha : 0 < a)
    (s : DepositRace) (hr : DepReach a ⟨0, K, none, 0⟩ s)
    (hp : s.pending = 0) (hl : s.active = none) :
    s.bal = K * a ∧ s.done = K := by
  obtain ⟨h1, h2, h3⟩ := raceInv_reach hr
  rw [hp, hl] at h3
  simp only [Option.isSome_none, Bool.false_eq_true, if_false] at h3
  have hdone : s.done = K := by omega
  exact ⟨by rw [h1, hdone], hdone⟩

/-! ### Witnesses -/

theorem withdraw_insufficient_iff_witness :
    lookupBal (InMemoryStore.mk [("1001", (10 : Int))] ["1001"]).balances "1001"
      = some 10
    ∧ (0 : Int) < 3
    ∧ ((InMemoryStore.mk [("1001", (10 : Int))] ["1001"]).withdraw "1001" 3).1
      = .ok 7 := by
  have h := withdraw_insufficient_iff
    (InMemoryStore.mk [("1001", (10 : Int))] ["1001"]) "1001" 3 10
    (by decide) (by decide)
  refine ⟨by decide, by decide, ?_⟩
  have h2 := (h.2.2.1 (by norm_num)).1
  norm_num at h2
  exact h2

theorem balances_nonneg_invariant_witness :
    (∀ p ∈ [("1001", (5 : Int))], 0 ≤ p.2)
    ∧ (∀ op ∈ [Op.deposit "1001" 7, Op.withdraw "1001" 3], op.Ok)
    ∧ AllNonneg (runOps (InMemoryStore.init [("1001", (5 : Int))])
        [Op.deposit "1001" 7, Op.withdraw "1001" 3]) := by
  have h1 : ∀ p ∈ [("1001", (5 : Int))], 0 ≤ p.2 := by
    intro p hp
    simp only [List.mem_singleton] at hp
    rw [hp]
    norm_num
  have h2 : ∀ op ∈ [Op.deposit "1001" 7, Op.withdraw "1001" 3], op.Ok := by
    intro op hop
    simp only [List.mem_cons, List.mem_singleton, List.not_mem_nil, or_false] at hop
    rcases hop with rfl | rfl <;> norm_num [Op.Ok]
  exact ⟨h1, h2, balances_nonneg_invariant _ h1 _ h2⟩

theorem parse_format_roundtrip_witness :
    ((-12345 : Int).natAbs < 10 ^ 28)
    ∧ (parseDecimal (cents_to_str (-12345))).bind to_cents = some (-12345) :=
  ⟨by decide, (parse_format_roundtrip (-12345)).1 (by decide)⟩

theorem account_not_found_iff_witness :
    lookupBal (InMemoryStore.init [("1001", (5 : Int))]).balances "9999" = none
    ∧ (InMemoryStore.init [("1001", (5 : Int))]).get_balance_cents "9999"
        = .error .accountNotFound
    ∧ ((InMemoryStore.init [("1001", (5 : Int))]).deposit "9999" 3).2
        = InMemoryStore.init [("1001", (5 : Int))] := by
  have h := account_not_found_iff (InMemoryStore.init [("1001", (5 : Int))]) "9999" 3
  exact ⟨by decide, h.1.mpr (by decide), (h.2.2.2 (by decide)).1⟩

theorem deposit_adds_witness :
    lookupBal (InMemoryStore.mk [("1001", (10 : Int)), ("1002", 4)]
      ["1001", "1002"]).balances "1001" = some 10
    ∧ (0 : Int) < 5
    ∧ ((InMemoryStore.mk [("1001", (10 : Int)), ("1002", 4)]
        ["1001", "1002"]).deposit "1001" 5).1 = .ok 15
    ∧ lookupBal ((InMemoryStore.mk [("1001", (10 : Int)), ("1002", 4)]
        ["1001", "1002"]).deposit "1001" 5).2.balances "1002" = some 4 := by
  have h := deposit_adds (InMemoryStore.mk [("1001", (10 : Int)), ("1002", 4)]
    ["1001", "1002"]) "1001" 5 10 (by decide) (by decide)
  refine ⟨by decide, by decide, ?_, ?_⟩
  · have h1 := h.1
    norm_num at h1
    exact h1
  · have h3 := h.2.2 "1002" (by decide)
    rw [h3]
    decide

theorem to_cents_half_up_spec_witness :
    (PyDecimal.mk (-1) (-2)).val ≤ -(1 / 200 : ℚ)
    ∧ to_cents ⟨-1, -2⟩ = some (-1)
    ∧ (-1 : Int) < 0 := by
  have hv : (PyDecimal.mk (-1) (-2)).val ≤ -(1 / 200 : ℚ) := by
    show ((-1 : ℤ) : ℚ) * (10 : ℚ) ^ (-2 : ℤ) ≤ -(1 / 200 : ℚ)
    rw [show ((-2) : ℤ) = -(2 : ℤ) by norm_num, zpow_neg]
    norm_num
  have he : to_cents ⟨-1, -2⟩ = some (-1) := by decide
  exact ⟨hv, he, to_cents_half_up_spec.2.2.2.2 ⟨-1, -2⟩ (-1) hv he⟩

theorem cents_to_str_format_witness :
    cents_to_str (-150) = "-1.50" :=
  cents_to_str_format.2.1

theorem concurrent_deposits_sum_witness :
    (0 : Int) < 5
    ∧ (DepositRace.mk 10 0 none 2).pending = 0
    ∧ (DepositRace.mk 10 0 none 2).active = none
    ∧ (DepositRace.mk 10 0 none 2).bal = 2 * 5
    ∧ (DepositRace.mk 10 0 none 2).done = 2 := by
  have s1 : DepStep 5 ⟨0, 2, none, 0⟩ ⟨0, 1, some none, 0⟩ :=
    DepStep.acquire _ (by norm_num) rfl
  have s2 : DepStep 5 ⟨0, 1, some none, 0⟩ ⟨0, 1, some (some 0), 0⟩ :=
    DepStep.read _ rfl
  have s3 : DepStep 5 ⟨0, 1, some (some 0), 0⟩ ⟨5, 1, none, 1⟩ :=
    DepStep.write _ 0 rfl
  have s4 : DepStep 5 ⟨5, 1, none, 1⟩ ⟨5, 0, some none, 1⟩ :=
    DepStep.acquire _ (by norm_num) rfl
  have s5 : DepStep 5 ⟨5, 0, some none, 1⟩ ⟨5, 0, some (some 5), 1⟩ :=
    DepStep.read _ rfl
  have s6 : DepStep 5 ⟨5, 0, some (some 5), 1⟩ ⟨10, 0, none, 2⟩ :=
    DepStep.write _ 5 rfl
  have hreach : DepReach 5 ⟨0, 2, none, 0⟩ ⟨10, 0, none, 2⟩ :=
    Relation.ReflTransGen.trans (Relation.ReflTransGen.single s1)
      (Relation.ReflTransGen.trans (Relation.ReflTransGen.single s2)
        (Relation.ReflTransGen.trans (Relation.ReflTransGen.single s3)
          (Relation.ReflTransGen.trans (Relation.ReflTransGen.single s4)
            (Relation.ReflTransGen.trans (Relation.ReflTransGen.single s5)
              (Relation.ReflTransGen.single s6)))))
  have h := concurrent_deposits_sum 2 5 (by norm_num) ⟨10, 0, none, 2⟩ hreach rfl rfl
  refine ⟨by norm_num, rfl, rfl, ?_, h.2⟩
  exact_mod_cast h.1

theorem store_level_no_validation_witness :
    lookupBal (InMemoryStore.mk [("1001", (10 : Int))] ["1001"]).balances "1001"
      = some 10
    ∧ lookupBal (InMemoryStore.mk [("1001", (10 : Int))] ["1001"]).balances "7777"
      = none
    ∧ ((InMemoryStore.mk [("1001", (10 : Int))] ["1001"]).deposit "1001" (-7)).1
      = .ok 3
    ∧ ((InMemoryStore.mk [("1001", (10 : Int))] ["1001"]).create_account
        "7777" (-5)).2.get_balance_cents "7777" = .ok (-5) := by
  have h := store_level_no_validation
    (InMemoryStore.mk [("1001", (10 : Int))] ["1001"]) "1001" "7777" (-7) 10 (-5)
    (by decide) (by decide)
  refine ⟨by decide, by decide, ?_, h.2.2.2⟩
  have h1 := h.1
  norm_num at h1
  exact h1
